import Mathlib

/-!
Verification development for the PlanetSide2 nihongo-mod UI updater
(`src/main.py`).  The core logic modelled here:

* PEP 440 version parsing and comparison (the `packaging.version` library as
  used by `VersionInfo.is_update_available`,
  `GitHubReleaseScraper._get_highest_version_tag` and
  `MainManager._check_single_entity_update`);
* the two GitHub repository-reference parsers (scraper and resource manager)
  over a model of Python's `urllib.parse.urlparse`;
* `GitHubResourceManager.download_release_asset` (error taxonomy and
  progress-callback protocol);
* `MainManager._check_single_entity_update` (the `latest_available`
  invariant);
* `DownloadWorker.run` together with the `UIManager` download-in-progress
  flag (cooperative cancellation, terminal events, single active run);
* `JsonConfigManager._load_config` / `set_config_value` (self-healing
  schema migration).

Machine strings are modelled as Lean `String` over their ASCII fragment;
Python integers as `Nat` where they are provably non-negative in the source.
-/

namespace PS2JP

/-! ### PEP 440 versions (`packaging.version`)

`main.py` calls `version.parse` (which raises `InvalidVersion` on
non-PEP-440 strings), `Version.__eq__` / `__gt__` (comparison of the
normalised `_key` tuples) and `Version.is_prerelease`.  The grammar below is
the `VERSION_PATTERN` regular expression of `packaging/version.py`,
implemented as a recursive-descent parser; the comparison key is
`Version._cmpkey`. -/

inductive LocalSeg where
  | num (n : Nat)
  | str (s : List Char)
deriving DecidableEq, Repr

structure PyVersion where
  epoch : Nat
  release : List Nat
  pre : Option (String × Nat)
  post : Option Nat
  dev : Option Nat
  localver : Option (List LocalSeg)
deriving DecidableEq, Repr

/-- Python regex `\s` over the ASCII range. -/
def isPySpace (c : Char) : Bool :=
  c = ' ' || c = '\t' || c = '\n' || c = '\r' || c = '\x0b' || c = '\x0c'

def digitsToNat (ds : List Char) : Nat :=
  ds.foldl (fun n c => 10 * n + (c.toNat - 48)) 0

def takeDigits (cs : List Char) : List Char × List Char :=
  (cs.takeWhile Char.isDigit, cs.dropWhile Char.isDigit)

/-- Separator class `[-_.]` of the version pattern. -/
def isVSep (c : Char) : Bool := c = '-' || c = '_' || c = '.'

/-- `(?:\.[0-9]+)*`: further dotted numeric components of the release
segment.  Fuel-indexed; callers pass the remaining length, which suffices
because every iteration consumes at least two characters. -/
def releaseMore : Nat → List Nat → List Char → List Nat × List Char
  | 0, acc, cs => (acc, cs)
  | fuel + 1, acc, cs =>
    match cs with
    | '.' :: rest =>
      let (ds, rest') := takeDigits rest
      if ds.isEmpty then (acc, cs)
      else releaseMore fuel (acc ++ [digitsToNat ds]) rest'
    | _ => (acc, cs)

/-- Match one keyword of an alternation (keywords listed longest first, which
agrees with the leftmost-match-plus-backtracking semantics of the regex for
these particular alternations, since no keyword can be followed by a parse
of the remainder that its extension could not also produce). -/
def matchKeyword : List String → List Char → Option (String × List Char)
  | [], _ => none
  | k :: ks, cs =>
    if cs.take k.length = k.data then some (k, cs.drop k.length)
    else matchKeyword ks cs

def dropVSep (cs : List Char) : List Char :=
  match cs with
  | c :: rest => if isVSep c then rest else cs
  | [] => []

/-- `[-_\.]? KEYWORD [-_\.]? ([0-9]+)?` — the shared shape of the pre, post
(word form) and dev groups. -/
def parseTagged (kws : List String) (cs : List Char) : Option (String × Nat × List Char) :=
  match matchKeyword kws (dropVSep cs) with
  | none => none
  | some (k, cs₂) =>
    let (ds, cs₄) := takeDigits (dropVSep cs₂)
    some (k, digitsToNat ds, cs₄)

/-- `packaging` spelling normalisation for pre-release letters. -/
def normPre : String → String
  | "alpha" => "a"
  | "beta" => "b"
  | "c" => "rc"
  | "pre" => "rc"
  | "preview" => "rc"
  | s => s

def parsePostWord (cs : List Char) : Option (Nat × List Char) :=
  match parseTagged ["post", "rev", "r"] cs with
  | none => none
  | some (_, n, rest) => some (n, rest)

/-- Post group: `(?:-(?P<post_n1>[0-9]+)) | (?:[-_\.]?(post|rev|r)[-_\.]?([0-9]+)?)`. -/
def parsePost (cs : List Char) : Option (Nat × List Char) :=
  match cs with
  | '-' :: rest =>
    let (ds, rest') := takeDigits rest
    if ds.isEmpty then parsePostWord cs else some (digitsToNat ds, rest')
  | _ => parsePostWord cs

def parseDev (cs : List Char) : Option (Nat × List Char) :=
  match parseTagged ["dev"] cs with
  | none => none
  | some (_, n, rest) => some (n, rest)

def isLocalChar (c : Char) : Bool := c.isDigit || ('a' ≤ c && c ≤ 'z')

def mkLocalSeg (s : List Char) : LocalSeg :=
  if s.all Char.isDigit then .num (digitsToNat s) else .str s

/-- `(?:[-_\.][a-z0-9]+)*` in the local-version group. -/
def localSegsMore : Nat → List LocalSeg → List Char → List LocalSeg × List Char
  | 0, acc, cs => (acc, cs)
  | fuel + 1, acc, cs =>
    match cs with
    | c :: rest =>
      if isVSep c then
        let seg := rest.takeWhile isLocalChar
        let rest' := rest.dropWhile isLocalChar
        if seg.isEmpty then (acc, cs)
        else localSegsMore fuel (acc ++ [mkLocalSeg seg]) rest'
      else (acc, cs)
    | [] => (acc, [])

/-- Local-version group `(?:\+(?P<local>[a-z0-9]+(?:[-_\.][a-z0-9]+)*))?`.
If it cannot match, the leftover (still containing `+`) makes the whole
parse fail at the end-of-input check, exactly as the anchored regex does. -/
def parseLocal (cs : List Char) : Option (List LocalSeg) × List Char :=
  match cs with
  | '+' :: rest =>
    let seg := rest.takeWhile isLocalChar
    let rest' := rest.dropWhile isLocalChar
    if seg.isEmpty then (none, cs)
    else
      let (segs, rest'') := localSegsMore rest'.length [mkLocalSeg seg] rest'
      (some segs, rest'')
  | _ => (none, cs)

def parseVersionChars (cs0 : List Char) : Option PyVersion :=
  let cs1 := cs0.dropWhile isPySpace
  let cs2 := (cs1.reverse.dropWhile isPySpace).reverse
  let cs3 := match cs2 with
    | 'v' :: rest => rest
    | _ => cs2
  let (eds, r1) := takeDigits cs3
  let epochAnd : Nat × List Char :=
    match r1 with
    | '!' :: r2 => if eds.isEmpty then (0, cs3) else (digitsToNat eds, r2)
    | _ => (0, cs3)
  let epoch := epochAnd.1
  let (rds, cs4) := takeDigits epochAnd.2
  if rds.isEmpty then none
  else
    let (rel, cs5) := releaseMore cs4.length [digitsToNat rds] cs4
    let preAnd : Option (String × Nat) × List Char :=
      match parseTagged ["alpha", "beta", "preview", "pre", "rc", "a", "b", "c"] cs5 with
      | some (k, n, rest) => (some (normPre k, n), rest)
      | none => (none, cs5)
    let postAnd : Option Nat × List Char :=
      match parsePost preAnd.2 with
      | some (n, rest) => (some n, rest)
      | none => (none, preAnd.2)
    let devAnd : Option Nat × List Char :=
      match parseDev postAnd.2 with
      | some (n, rest) => (some n, rest)
      | none => (none, postAnd.2)
    let (lv, cs9) := parseLocal devAnd.2
    if cs9.isEmpty then some ⟨epoch, rel, preAnd.1, postAnd.1, devAnd.1, lv⟩ else none

/-- `version.parse`: the pattern is compiled with `re.IGNORECASE`, and all
normalised fields are lowercase, so we lowercase up front. -/
def parseVersion (s : String) : Option PyVersion :=
  parseVersionChars (s.data.map Char.toLower)

/-! #### The comparison key (`packaging.version._cmpkey`) -/

def trimZeros (l : List Nat) : List Nat := (l.reverse.dropWhile (· = 0)).reverse

def preRank : String → Nat
  | "a" => 0
  | "b" => 1
  | _ => 2

abbrev SegKey := Nat ×ₗ (Nat ×ₗ List Nat)

/-- Local segments compare as Python tuples: an integer segment `i` is
`(i, "")` and a string segment `s` is `(NegativeInfinity, s)`; so every
integer segment sorts above every string segment, strings by code points. -/
def segKey : LocalSeg → SegKey
  | .num n => toLex (1, toLex (n, []))
  | .str s => toLex (0, toLex (0, s.map Char.toNat))

abbrev PreKey := Nat ×ₗ (Nat ×ₗ Nat)
abbrev PairKey := Nat ×ₗ Nat
abbrev LocalKey := Nat ×ₗ List SegKey
abbrev VKey := Nat ×ₗ (List Nat ×ₗ (PreKey ×ₗ (PairKey ×ₗ (PairKey ×ₗ LocalKey))))

/-- `-∞` when there is a dev segment but no pre and no post; `∞` when there
is no pre segment otherwise; the (letter, number) pair when present
(letters compare as strings: `"a" < "b" < "rc"`). -/
def preKeyOf (v : PyVersion) : PreKey :=
  match v.pre with
  | some (l, n) => toLex (1, toLex (preRank l, n))
  | none =>
    if v.post.isNone && v.dev.isSome then toLex (0, toLex (0, 0))
    else toLex (2, toLex (0, 0))

def postKeyOf (v : PyVersion) : PairKey :=
  match v.post with
  | some n => toLex (1, n)
  | none => toLex (0, 0)

def devKeyOf (v : PyVersion) : PairKey :=
  match v.dev with
  | some n => toLex (0, n)
  | none => toLex (1, 0)

def localKeyOf (v : PyVersion) : LocalKey :=
  match v.localver with
  | some segs => toLex (1, segs.map segKey)
  | none => toLex (0, [])

def toKey (v : PyVersion) : VKey :=
  toLex (v.epoch,
    toLex (trimZeros v.release,
      toLex (preKeyOf v, toLex (postKeyOf v, toLex (devKeyOf v, localKeyOf v)))))

/-- `Version.__lt__` / `__gt__`: comparison of `_key` tuples. -/
def pvLt (a b : PyVersion) : Bool := decide (toKey a < toKey b)

/-- `Version.__eq__`: equality of `_key` tuples (so `1.0 == 1.0.0`). -/
def pvEq (a b : PyVersion) : Bool := decide (toKey a = toKey b)

/-- `Version.is_prerelease`: `self.dev is not None or self.pre is not None`. -/
def isPrerelease (v : PyVersion) : Bool := v.dev.isSome || v.pre.isSome

/-! ### `VersionInfo` (main.py lines 631-652) -/

structure VersionInfo where
  current : String
  latest_available : String
  server_url : Option String := none
deriving DecidableEq, Repr

/-- `VersionInfo.is_update_available`: `version.parse(latest) !=
version.parse(current)`, with `InvalidVersion` (from either parse) caught
and turned into `False`. -/
def VersionInfo.is_update_available (vi : VersionInfo) : Bool :=
  match parseVersion vi.latest_available, parseVersion vi.current with
  | some l, some c => !(pvEq l c)
  | _, _ => false

example : parseVersion "v1.1.0-beta" =
    some ⟨0, [1, 1, 0], some ("b", 0), none, none, none⟩ := by decide

example : parseVersion "1.0" = some ⟨0, [1, 0], none, none, none, none⟩ := by decide

example : pvEq ⟨0, [1, 0], none, none, none, none⟩ ⟨0, [1, 0, 0], none, none, none, none⟩
    = true := by decide

/-- C1: for every `VersionInfo` whose two version strings both parse,
`is_update_available` is true iff the parsed versions differ (as PEP 440
versions, so purely formatting differences compare equal); and if either
string fails to parse, it returns `false` instead of raising. -/
theorem c1_is_update_available_correct (vi : VersionInfo) :
    (∀ l c, parseVersion vi.latest_available = some l →
      parseVersion vi.current = some c →
      (vi.is_update_available = true ↔ pvEq l c = false)) ∧
    ((parseVersion vi.latest_available = none ∨ parseVersion vi.current = none) →
      vi.is_update_available = false) := by
  constructor
  · intro l c hl hc
    simp [VersionInfo.is_update_available, hl, hc, Bool.not_eq_true']
  · intro h
    rcases h with h | h
    · simp [VersionInfo.is_update_available, h]
    · unfold VersionInfo.is_update_available
      rw [h]
      cases parseVersion vi.latest_available <;> rfl

/-- Witness for C1 at concrete inputs: `v1.1` vs `1.0.0` is an update,
and an unparseable `latest_available` reports no update. -/
theorem c1_witness :
    (VersionInfo.is_update_available ⟨"1.0.0", "v1.1", none⟩ = true) ∧
    (VersionInfo.is_update_available ⟨"1.0.0", "abc", none⟩ = false) := by
  refine ⟨?_, (c1_is_update_available_correct ⟨"1.0.0", "abc", none⟩).2 (Or.inl (by decide))⟩
  exact ((c1_is_update_available_correct ⟨"1.0.0", "v1.1", none⟩).1
    ⟨0, [1, 1], none, none, none, none⟩ ⟨0, [1, 0, 0], none, none, none, none⟩
    (by decide) (by decide)).mpr (by decide)

/-! ### `GitHubReleaseScraper._get_highest_version_tag` (main.py lines 313-343) -/

structure ReleaseInfo where
  tag_name : String
  is_latest : Bool := false
  html_url : String := ""
deriving DecidableEq, Repr

/-- One iteration of the scan over `releases_info`: unparseable tags are
skipped, pre-releases are skipped when `include_prerelease` is false, and
the running maximum is replaced only on strict increase
(`parsed_version > highest_version`). -/
def highestStep (includePrerelease : Bool) (acc : Option (PyVersion × String))
    (r : ReleaseInfo) : Option (PyVersion × String) :=
  match parseVersion r.tag_name with
  | none => acc
  | some v =>
    if !includePrerelease && isPrerelease v then acc
    else
      match acc with
      | none => some (v, r.tag_name)
      | some (hv, ht) => if pvLt hv v then some (v, r.tag_name) else some (hv, ht)

/-- `_get_highest_version_tag` (the final `if highest_version_tag_name:` is
Python truthiness, so an empty winning tag would also yield `None`). -/
def getHighestVersionTag (releases : List ReleaseInfo) (includePrerelease : Bool) :
    Option String :=
  match releases.foldl (highestStep includePrerelease) none with
  | some (_, t) => if t = "" then none else some t
  | none => none

/-- A release survives the filtering: its tag parses, and it is not a
pre-release unless `include_prerelease` is set. -/
def isCandidate (includePrerelease : Bool) (r : ReleaseInfo) : Bool :=
  match parseVersion r.tag_name with
  | none => false
  | some v => includePrerelease || !isPrerelease v

def candidates (includePrerelease : Bool) (rs : List ReleaseInfo) : List ReleaseInfo :=
  rs.filter (isCandidate includePrerelease)

/-- Every release in `rs` parses to a strictly smaller version than `v`. -/
def allLtV (rs : List ReleaseInfo) (v : PyVersion) : Prop :=
  ∀ r' ∈ rs, ∀ v', parseVersion r'.tag_name = some v' → pvLt v' v = true

/-- No release in `rs` parses to a strictly greater version than `v`. -/
def noneGtV (v : PyVersion) (rs : List ReleaseInfo) : Prop :=
  ∀ r' ∈ rs, ∀ v', parseVersion r'.tag_name = some v' → pvLt v v' = false

def accLtV (acc : Option (PyVersion × String)) (v : PyVersion) : Prop :=
  ∀ v₀ t₀, acc = some (v₀, t₀) → pvLt v₀ v = true

/-- The scan starting from `acc` over `rs` ends at `(v, t)` iff `(v, t)` is
either the untouched accumulator dominating all candidates, or the first
candidate of maximal parsed version (everything before it strictly
smaller, nothing after it strictly greater). -/
def FirstMax (f : Bool) (rs : List ReleaseInfo) (acc : Option (PyVersion × String))
    (v : PyVersion) (t : String) : Prop :=
  (acc = some (v, t) ∧ noneGtV v (candidates f rs)) ∨
  (∃ l₁ r l₂ vr, candidates f rs = l₁ ++ r :: l₂ ∧
    parseVersion r.tag_name = some vr ∧ vr = v ∧ r.tag_name = t ∧
    accLtV acc v ∧ allLtV l₁ v ∧ noneGtV v l₂)

theorem pvLt_iff {a b : PyVersion} : pvLt a b = true ↔ toKey a < toKey b := by
  simp [pvLt]

theorem pvLt_trans {a b c : PyVersion} (h₁ : pvLt a b = true) (h₂ : pvLt b c = true) :
    pvLt a c = true :=
  pvLt_iff.mpr (lt_trans (pvLt_iff.mp h₁) (pvLt_iff.mp h₂))

theorem pvLt_of_not_lt_of_lt {a b c : PyVersion} (h₁ : pvLt b a = false)
    (h₂ : pvLt b c = true) : pvLt a c = true := by
  refine pvLt_iff.mpr (lt_of_le_of_lt (le_of_not_lt ?_) (pvLt_iff.mp h₂))
  intro hlt
  exact absurd (pvLt_iff.mpr hlt) (by simp [h₁])

theorem highestStep_not_candidate {f : Bool} {r : ReleaseInfo}
    (h : isCandidate f r = false) (acc : Option (PyVersion × String)) :
    highestStep f acc r = acc := by
  unfold highestStep
  unfold isCandidate at h
  cases hp : parseVersion r.tag_name with
  | none => simp
  | some v =>
    rw [hp] at h
    simp only
    have : (!f && isPrerelease v) = true := by
      cases f <;> cases hpre : isPrerelease v <;> simp_all
    simp [this]

theorem highestStep_candidate {f : Bool} {r : ReleaseInfo} {v : PyVersion}
    (hp : parseVersion r.tag_name = some v) (h : isCandidate f r = true)
    (acc : Option (PyVersion × String)) :
    highestStep f acc r =
      match acc with
      | none => some (v, r.tag_name)
      | some (hv, ht) => if pvLt hv v then some (v, r.tag_name) else some (hv, ht) := by
  unfold highestStep
  unfold isCandidate at h
  rw [hp] at h ⊢
  have : (!f && isPrerelease v) = false := by
    cases f <;> cases hpre : isPrerelease v <;> simp_all
  simp [this]

theorem foldl_highest_spec (f : Bool) (rs : List ReleaseInfo) :
    ∀ acc : Option (PyVersion × String),
      (rs.foldl (highestStep f) acc = none ↔ (acc = none ∧ candidates f rs = [])) ∧
      (∀ v t, rs.foldl (highestStep f) acc = some (v, t) → FirstMax f rs acc v t) := by
  induction rs with
  | nil =>
    intro acc
    constructor
    · simp [candidates]
    · intro v t h
      left
      refine ⟨h, ?_⟩
      intro r' hr'
      simp [candidates] at hr'
  | cons r rs ih =>
    intro acc
    by_cases hc : isCandidate f r = true
    · -- r survives filtering
      obtain ⟨vc, hvc⟩ : ∃ vc, parseVersion r.tag_name = some vc := by
        unfold isCandidate at hc
        cases hp : parseVersion r.tag_name with
        | none => rw [hp] at hc; simp at hc
        | some v => exact ⟨v, rfl⟩
      have hcand : candidates f (r :: rs) = r :: candidates f rs := by
        simp [candidates, List.filter_cons, hc]
      have hstep := highestStep_candidate hvc hc acc
      -- the new accumulator after processing r
      have hfold : (r :: rs).foldl (highestStep f) acc
          = rs.foldl (highestStep f) (highestStep f acc r) := by simp
      cases acc with
      | none =>
        rw [hstep] at hfold
        simp only at hfold
        constructor
        · rw [hfold]
          constructor
          · intro h
            exact absurd ((ih (some (vc, r.tag_name))).1.mp h).1 (by simp)
          · intro h
            rw [hcand] at h
            simp at h
        · intro v t h
          rw [hfold] at h
          rcases (ih (some (vc, r.tag_name))).2 v t h with ⟨hacc, hng⟩ | hex
          · -- B1 from inner: r itself is the winner, first in candidates
            right
            simp only [Option.some.injEq, Prod.mk.injEq] at hacc
            obtain ⟨h1, h2⟩ := hacc
            subst h1; subst h2
            refine ⟨[], r, candidates f rs, vc, by simp [hcand], hvc, rfl, rfl, ?_, ?_, hng⟩
            · intro v₀ t₀ h₀; cases h₀
            · intro r' hr'; simp at hr'
          · -- winner comes from rs; r goes to the strictly-smaller prefix
            right
            obtain ⟨l₁, w, l₂, vw, hsplit, hpw, hvw, htw, haccw, hl₁, hl₂⟩ := hex
            subst hvw
            refine ⟨r :: l₁, w, l₂, vw, by rw [hcand, hsplit, List.cons_append], hpw, rfl,
              htw, ?_, ?_, hl₂⟩
            · intro v₀ t₀ h₀; cases h₀
            · intro r' hr' v' hv'
              rcases List.mem_cons.mp hr' with h' | h'
              · subst h'
                rw [hvc] at hv'; injection hv' with hv'; subst hv'
                exact haccw _ _ rfl
              · exact hl₁ r' h' v' hv'
      | some hvht =>
        obtain ⟨hv, ht⟩ := hvht
        rw [hstep] at hfold
        simp only at hfold
        by_cases hlt : pvLt hv vc = true
        · rw [if_pos hlt] at hfold
          constructor
          · rw [hfold]
            constructor
            · intro h
              exact absurd ((ih (some (vc, r.tag_name))).1.mp h).1 (by simp)
            · intro h
              rw [hcand] at h
              simp at h
          · intro v t h
            rw [hfold] at h
            rcases (ih (some (vc, r.tag_name))).2 v t h with ⟨hacc, hng⟩ | hex
            · right
              simp only [Option.some.injEq, Prod.mk.injEq] at hacc
              obtain ⟨h1, h2⟩ := hacc
              subst h1; subst h2
              refine ⟨[], r, candidates f rs, vc, by simp [hcand], hvc, rfl, rfl, ?_, ?_, hng⟩
              · intro v₀ t₀ h₀
                simp only [Option.some.injEq, Prod.mk.injEq] at h₀
                obtain ⟨g1, g2⟩ := h₀
                subst g1
                exact hlt
              · intro r' hr'; simp at hr'
            · right
              obtain ⟨l₁, w, l₂, vw, hsplit, hpw, hvw, htw, haccw, hl₁, hl₂⟩ := hex
              subst hvw
              refine ⟨r :: l₁, w, l₂, vw, by rw [hcand, hsplit, List.cons_append], hpw, rfl,
                htw, ?_, ?_, hl₂⟩
              · intro v₀ t₀ h₀
                simp only [Option.some.injEq, Prod.mk.injEq] at h₀
                obtain ⟨g1, g2⟩ := h₀
                subst g1
                exact pvLt_trans hlt (haccw vc r.tag_name rfl)
              · intro r' hr' v' hv'
                rcases List.mem_cons.mp hr' with h' | h'
                · subst h'
                  rw [hvc] at hv'; injection hv' with hv'; subst hv'
                  exact haccw _ _ rfl
                · exact hl₁ r' h' v' hv'
        · rw [if_neg hlt] at hfold
          have hltf : pvLt hv vc = false := by
            cases hx : pvLt hv vc
            · rfl
            · exact absurd hx hlt
          constructor
          · rw [hfold]
            constructor
            · intro h
              exact absurd ((ih (some (hv, ht))).1.mp h).1 (by simp)
            · intro h
              rw [hcand] at h
              simp at h
          · intro v t h
            rw [hfold] at h
            rcases (ih (some (hv, ht))).2 v t h with ⟨hacc, hng⟩ | hex
            · left
              simp only [Option.some.injEq, Prod.mk.injEq] at hacc
              obtain ⟨h1, h2⟩ := hacc
              subst h1; subst h2
              refine ⟨rfl, ?_⟩
              rw [hcand]
              intro r' hr' v' hv'
              rcases List.mem_cons.mp hr' with h' | h'
              · subst h'
                rw [hvc] at hv'; injection hv' with hv'; subst hv'
                exact hltf
              · exact hng r' h' v' hv'
            · right
              obtain ⟨l₁, w, l₂, vw, hsplit, hpw, hvw, htw, haccw, hl₁, hl₂⟩ := hex
              subst hvw
              refine ⟨r :: l₁, w, l₂, vw, by rw [hcand, hsplit, List.cons_append], hpw, rfl,
                htw, haccw, ?_, hl₂⟩
              intro r' hr' v' hv'
              rcases List.mem_cons.mp hr' with h' | h'
              · subst h'
                rw [hvc] at hv'; injection hv' with hv'; subst hv'
                exact pvLt_of_not_lt_of_lt hltf (haccw hv ht rfl)
              · exact hl₁ r' h' v' hv'
    · -- r is filtered out: nothing changes
      have hc' : isCandidate f r = false := by
        cases hx : isCandidate f r
        · rfl
        · exact absurd hx hc
      have hcand : candidates f (r :: rs) = candidates f rs := by
        simp [candidates, List.filter_cons, hc']
      have hfold : (r :: rs).foldl (highestStep f) acc
          = rs.foldl (highestStep f) acc := by
        simp [highestStep_not_candidate hc']
      constructor
      · rw [hfold, hcand]
        exact (ih acc).1
      · intro v t h
        rw [hfold] at h
        have hfm := (ih acc).2 v t h
        unfold FirstMax at hfm ⊢
        rw [hcand]
        exact hfm

theorem parse_some_ne_empty {t : String} {v : PyVersion}
    (h : parseVersion t = some v) : t ≠ "" := by
  intro he
  subst he
  have hn : parseVersion "" = none := by decide
  rw [hn] at h
  cases h

def mkRel (t : String) : ReleaseInfo := ⟨t, false, ""⟩

/-- C2: `_get_highest_version_tag` skips unparseable tags, excludes
pre-releases when `include_prerelease` is false, returns the tag of the
first release attaining the strictly greatest surviving parsed version
(everything filtered before it parses strictly smaller, nothing after it
parses strictly greater), returns `none` when no candidate survives; and
behaves as specified on the two example release lists. -/
theorem c2_highest_version_tag (rs : List ReleaseInfo) (f : Bool) :
    (getHighestVersionTag rs f = none ↔ candidates f rs = []) ∧
    (∀ t, getHighestVersionTag rs f = some t →
      ∃ l₁ r l₂ vr, candidates f rs = l₁ ++ r :: l₂ ∧
        parseVersion r.tag_name = some vr ∧ r.tag_name = t ∧
        allLtV l₁ vr ∧ noneGtV vr l₂) ∧
    (getHighestVersionTag [mkRel "v1.0.0", mkRel "v1.2.0", mkRel "v1.1.0-beta"] false
      = some "v1.2.0") ∧
    (getHighestVersionTag [mkRel "v1.0.0", mkRel "v1.2.0", mkRel "v1.1.0-beta"] true
      = some "v1.2.0") ∧
    (getHighestVersionTag [mkRel "v1.0.0", mkRel "v1.2.0-beta"] false = some "v1.0.0") ∧
    (getHighestVersionTag [mkRel "v1.0.0", mkRel "v1.2.0-beta"] true
      = some "v1.2.0-beta") := by
  refine ⟨?_, ?_, by decide, by decide, by decide, by decide⟩
  · cases hf : rs.foldl (highestStep f) none with
    | none =>
      have hg : getHighestVersionTag rs f = none := by
        simp [getHighestVersionTag, hf]
      simp [hg, ((foldl_highest_spec f rs none).1.mp hf).2]
    | some vt =>
      obtain ⟨v, t'⟩ := vt
      rcases (foldl_highest_spec f rs none).2 v t' hf with ⟨hacc, _⟩ | hex
      · cases hacc
      · obtain ⟨l₁, w, l₂, vw, hsplit, hpw, _, htw, _, _, _⟩ := hex
        have hne : t' ≠ "" := by rw [← htw]; exact parse_some_ne_empty hpw
        have hg : getHighestVersionTag rs f = some t' := by
          simp [getHighestVersionTag, hf, hne]
        rw [hg]
        constructor
        · intro h; cases h
        · intro h
          rw [h] at hsplit
          simp at hsplit
  · intro t h
    cases hf : rs.foldl (highestStep f) none with
    | none =>
      have hg : getHighestVersionTag rs f = none := by
        simp [getHighestVersionTag, hf]
      rw [hg] at h; cases h
    | some vt =>
      obtain ⟨v, t'⟩ := vt
      rcases (foldl_highest_spec f rs none).2 v t' hf with ⟨hacc, _⟩ | hex
      · cases hacc
      · obtain ⟨l₁, w, l₂, vw, hsplit, hpw, hvw, htw, _, hl₁, hl₂⟩ := hex
        have hne : t' ≠ "" := by rw [← htw]; exact parse_some_ne_empty hpw
        have hg : getHighestVersionTag rs f = some t' := by
          simp [getHighestVersionTag, hf, hne]
        rw [hg] at h
        injection h with h
        subst h
        subst hvw
        exact ⟨l₁, w, l₂, vw, hsplit, hpw, htw, hl₁, hl₂⟩

/-- Witness for C2: a run with a mixed list, applying the characterization
to extract the winner's bounds at a concrete input. -/
theorem c2_witness :
    candidates true [mkRel "bogus", mkRel "v1.0.0"] = [mkRel "v1.0.0"] ∧
    getHighestVersionTag [mkRel "bogus", mkRel "v1.0.0"] true = some "v1.0.0" ∧
    ∃ l₁ r l₂ vr, candidates true [mkRel "bogus", mkRel "v1.0.0"] = l₁ ++ r :: l₂ ∧
      parseVersion r.tag_name = some vr ∧ r.tag_name = "v1.0.0" ∧
      allLtV l₁ vr ∧ noneGtV vr l₂ :=
  ⟨by decide, by decide,
    (c2_highest_version_tag [mkRel "bogus", mkRel "v1.0.0"] true).2.1 "v1.0.0" (by decide)⟩

/-! ### `urllib.parse.urlparse` (model)

Model of CPython's `urlsplit`/`urlparse` restricted to the fields the two
repository parsers read (`scheme`, `netloc`, `path`).  Modelled behaviour:
leading C0-control/space characters are stripped and all tabs/CR/LF
removed; a scheme is split off when a `:` is preceded by a non-empty run of
scheme characters starting with an ASCII letter; a netloc follows `//` and
runs to the next `/?#`; the fragment (`#`) and then query (`?`) are cut
off; `urlparse` additionally drops `;params` from the last path segment.
`none` models the `ValueError` CPython raises for a bracketed authority
(CPython accepts a balanced bracket pair holding a valid IPv6/IPvFuture
literal; such hosts can never equal `github.com`, and none of the
repository's inputs are IPv6, so the model treats every bracket as the
error case).  Unicode-only behaviours (non-ASCII lowercasing, NFKC netloc
checks) are outside the modelled ASCII fragment. -/

structure UrlParts where
  scheme : String
  netloc : String
  path : String
deriving DecidableEq, Repr

def isSchemeChar (c : Char) : Bool :=
  c.isAlpha || c.isDigit || c = '+' || c = '-' || c = '.'

def isC0OrSpace (c : Char) : Bool := c.toNat ≤ 32

def splitScheme (cs : List Char) : List Char × List Char :=
  match cs.findIdx? (· = ':') with
  | some i =>
    if 0 < i ∧ (cs.headD ' ').isAlpha = true ∧ (cs.take i).all isSchemeChar = true then
      ((cs.take i).map Char.toLower, cs.drop (i + 1))
    else ([], cs)
  | none => ([], cs)

def isNetlocEnd (c : Char) : Bool := c = '/' || c = '?' || c = '#'

def splitNetloc (cs : List Char) : Option (List Char × List Char) :=
  match cs with
  | '/' :: '/' :: rest =>
    let netloc := rest.takeWhile (fun c => !isNetlocEnd c)
    let rest' := rest.dropWhile (fun c => !isNetlocEnd c)
    if netloc.contains '[' || netloc.contains ']' then none
    else some (netloc, rest')
  | _ => some ([], cs)

def dropFragmentQuery (cs : List Char) : List Char :=
  (cs.takeWhile (· ≠ '#')).takeWhile (· ≠ '?')

/-- `_splitparams`, applied by `urlparse` when the path contains `;`. -/
def splitParams (path : List Char) : List Char :=
  if path.contains ';' then
    if path.contains '/' then
      let r := path.reverse
      let b := (r.takeWhile (· ≠ '/')).reverse
      let aRev := r.dropWhile (· ≠ '/')
      if b.contains ';' then aRev.reverse ++ b.takeWhile (· ≠ ';') else path
    else path.takeWhile (· ≠ ';')
  else path

def urlparse (s : String) : Option UrlParts :=
  let cs := (s.data.dropWhile isC0OrSpace).filter
    (fun c => c ≠ '\t' && c ≠ '\n' && c ≠ '\r')
  let sc := splitScheme cs
  match splitNetloc sc.2 with
  | none => none
  | some (netloc, cs₂) =>
    some ⟨String.mk sc.1, String.mk netloc, String.mk (splitParams (dropFragmentQuery cs₂))⟩

/-! ### The two repository-reference parsers (main.py lines 345-375 and 549-555) -/

/-- Python `parsed.path.strip("/").split("/")` (list-of-chars level, to keep
everything kernel-computable). -/
def splitOnSlashAux : List Char → List Char → List String
  | [], acc => [String.mk acc.reverse]
  | c :: rest, acc =>
    if c = '/' then String.mk acc.reverse :: splitOnSlashAux rest []
    else splitOnSlashAux rest (c :: acc)

def stripSlash (cs : List Char) : List Char :=
  ((cs.dropWhile (· = '/')).reverse.dropWhile (· = '/')).reverse

def pathSegments (p : String) : List String :=
  splitOnSlashAux (stripSlash p.data) []

/-- `repo_candidate_raw[:-4] if repo_candidate_raw.lower().endswith(".git")`. -/
def stripGit (r : String) : String :=
  let low := r.data.map Char.toLower
  if 4 ≤ low.length ∧ low.drop (low.length - 4) = ['.', 'g', 'i', 't'] then
    String.mk (r.data.take (r.data.length - 4))
  else r

def netlocLower (p : UrlParts) : String := String.mk (p.netloc.data.map Char.toLower)

/-- Outcome of a Python function that can raise: `exn` models an uncaught
exception escaping to the caller. -/
inductive RepoParse where
  | exn
  | noResult
  | found (owner repo : String)
deriving DecidableEq, Repr

/-- `[part for part in parsed.path.strip("/").split("/") if part]`. -/
def nonemptySegs (p : UrlParts) : List String :=
  (pathSegments p.path).filter (fun x => x ≠ "")

/-- Candidate selection of `GitHubReleaseScraper._parse_github_repo_url`:
bare references need exactly two (non-empty) segments, `github.com` URLs at
least two. -/
def scraperCand (p : UrlParts) : Option (String × String) :=
  let parts := nonemptySegs p
  if p.scheme = "" ∧ p.netloc = "" then
    match parts with
    | [o, r] => some (o, r)
    | _ => none
  else if netlocLower p = "github.com" then
    match parts with
    | o :: r :: _ => some (o, r)
    | _ => none
  else none

def scraperBody (p : UrlParts) : RepoParse :=
  match scraperCand p with
  | none => .noResult
  | some (o, rraw) =>
    let r := stripGit rraw
    if o = "" ∨ r = "" then .noResult else .found o r

/-- `GitHubReleaseScraper._parse_github_repo_url`.  (The pre-strip
`if not owner_candidate or not repo_candidate_raw` check of the source is
subsumed: both candidates come from the list of non-empty segments.) -/
def scraperParseRepoUrl (s : String) : RepoParse :=
  if s = "" then .noResult
  else
    match urlparse s with
    | none => .exn
    | some p => scraperBody p

/-- `GitHubResourceManager._parse_github_repo_url` (no `.git` stripping, no
host lowercasing, raw — unfiltered — path segments). -/
def managerParseRepoUrl (s : String) : RepoParse :=
  match urlparse s with
  | none => .exn
  | some p =>
    let parts := pathSegments p.path
    if (p.netloc = "github.com" ∧ 2 ≤ parts.length) ∨
        (p.scheme = "" ∧ p.netloc = "" ∧ parts.length = 2) then
      .found (parts.getD 0 "") (parts.getD 1 "")
    else .noResult

/-- The parsing rules as the specification states them (amended only by the
`.git`-stripping proviso): a pair is returned exactly when either the input
has no scheme/host and exactly two non-empty segments, or its host matches
`github.com` (case-insensitively) and at least two segments survive —
*and* stripping a `.git` suffix leaves the repo segment non-empty. -/
def specBody (p : UrlParts) : RepoParse :=
  if (p.scheme = "" ∧ p.netloc = "" ∧
        (nonemptySegs p).length = 2) ∨
      (netlocLower p = "github.com" ∧
        2 ≤ (nonemptySegs p).length) then
    if stripGit ((nonemptySegs p).getD 1 "") = "" then .noResult
    else .found ((nonemptySegs p).getD 0 "")
      (stripGit ((nonemptySegs p).getD 1 ""))
  else .noResult

def specRepoParse (s : String) : RepoParse :=
  if s = "" then .noResult
  else
    match urlparse s with
    | none => .exn
    | some p => specBody p

theorem mem_nonemptySegs_ne {p : UrlParts} {x : String}
    (h : x ∈ nonemptySegs p) : x ≠ "" := by
  unfold nonemptySegs at h
  simpa using (List.mem_filter.mp h).2

theorem netlocLower_of_empty {p : UrlParts} (h : p.netloc = "") :
    netlocLower p = "" := by
  unfold netlocLower
  rw [h]
  decide

theorem netlocLower_of_github {p : UrlParts} (h : p.netloc = "github.com") :
    netlocLower p = "github.com" := by
  unfold netlocLower
  rw [h]
  decide

theorem scraperBody_eq_specBody (p : UrlParts) : scraperBody p = specBody p := by
  by_cases h₁ : p.scheme = "" ∧ p.netloc = ""
  · have hn : netlocLower p = "" := netlocLower_of_empty h₁.2
    have hng : ¬ netlocLower p = "github.com" := by
      rw [hn]; decide
    rcases hm : nonemptySegs p with _ | ⟨a, _ | ⟨b, rest⟩⟩
    · unfold scraperBody scraperCand specBody
      simp [h₁, hm, hng]
    · unfold scraperBody scraperCand specBody
      simp [h₁, hm, hng]
    · rcases rest with _ | ⟨c, rest'⟩
      · have ha : a ≠ "" :=
          mem_nonemptySegs_ne (by rw [hm]; exact List.mem_cons_self a [b])
        unfold scraperBody scraperCand specBody
        simp [h₁, hm, hng, ha]
      · unfold scraperBody scraperCand specBody
        simp [h₁, hm, hng]
  · by_cases h₂ : netlocLower p = "github.com"
    · rcases hm : nonemptySegs p with _ | ⟨a, _ | ⟨b, rest⟩⟩
      · unfold scraperBody scraperCand specBody
        simp [h₁, hm, h₂]
      · unfold scraperBody scraperCand specBody
        simp [h₁, hm, h₂]
      · have ha : a ≠ "" :=
          mem_nonemptySegs_ne (by rw [hm]; exact List.mem_cons_self a (b :: rest))
        unfold scraperBody scraperCand specBody
        simp [h₁, hm, h₂, ha]
    · have hL : scraperBody p = RepoParse.noResult := by
        unfold scraperBody scraperCand
        simp [h₁, h₂]
      have hR : specBody p = RepoParse.noResult := by
        unfold specBody
        rw [if_neg]
        rintro (⟨ha, hb, -⟩ | ⟨hg, -⟩)
        · exact h₁ ⟨ha, hb⟩
        · exact h₂ hg
      rw [hL, hR]

/-- C3 counterexample: `"o/.git"` has no scheme/host and splits into exactly
two non-empty path segments (`["o", ".git"]`), so the claim requires the
parser to return a pair; the code returns no result because stripping the
`.git` suffix empties the repo segment.  And an unbalanced-bracket
authority escapes as an exception (`ValueError` from `urlparse`) rather
than returning no result. -/
theorem c3_counterexample :
    urlparse "o/.git" = some ⟨"", "", "o/.git"⟩ ∧
    nonemptySegs ⟨"", "", "o/.git"⟩ = ["o", ".git"] ∧
    scraperParseRepoUrl "o/.git" = RepoParse.noResult ∧
    urlparse "http://[x/y/z" = none ∧
    scraperParseRepoUrl "http://[x/y/z" = RepoParse.exn := by decide

/-- C3 (amended): the parser behaves exactly as the claim's rules amended
with the `.git` proviso — a pair is returned exactly when ((a) no
scheme/host and exactly two non-empty segments, or (b) `github.com` host
and at least two segments) *and* the repo segment is non-empty after
stripping a `.git` suffix; returned fields are non-empty; an unparseable
(bracketed-authority) input raises instead of returning no result;
bare and full-URL spellings of the same repository agree; the listed
malformed inputs give no result. -/
theorem c3_repo_url_parser_amended (s : String) :
    scraperParseRepoUrl s = specRepoParse s ∧
    (∀ o r, scraperParseRepoUrl s = .found o r → o ≠ "" ∧ r ≠ "") ∧
    (scraperParseRepoUrl s = .exn ↔ s ≠ "" ∧ urlparse s = none) ∧
    (scraperParseRepoUrl "PS2-Localization-JP/PlanetSide2-nihongo-mod-ui"
      = scraperParseRepoUrl "https://github.com/PS2-Localization-JP/PlanetSide2-nihongo-mod-ui") ∧
    (scraperParseRepoUrl "https://github.com/owner/repo.git"
      = RepoParse.found "owner" "repo") ∧
    (scraperParseRepoUrl "" = RepoParse.noResult) ∧
    (scraperParseRepoUrl "justone" = RepoParse.noResult) ∧
    (scraperParseRepoUrl "https://gitlab.com/o/r" = RepoParse.noResult) := by
  have hbody : ∀ {s' : String} {p : UrlParts}, s' ≠ "" → urlparse s' = some p →
      scraperParseRepoUrl s' = scraperBody p := by
    intro s' p hs hu
    unfold scraperParseRepoUrl
    rw [if_neg hs, hu]
  have hexn : ∀ {s' : String}, s' ≠ "" → urlparse s' = none →
      scraperParseRepoUrl s' = RepoParse.exn := by
    intro s' hs hu
    unfold scraperParseRepoUrl
    rw [if_neg hs, hu]
  refine ⟨?_, ?_, ?_, by decide, by decide, by decide, by decide, by decide⟩
  · by_cases hs : s = ""
    · subst hs; decide
    · cases hu : urlparse s with
      | none =>
        rw [hexn hs hu]
        unfold specRepoParse
        rw [if_neg hs, hu]
      | some p =>
        rw [hbody hs hu, scraperBody_eq_specBody]
        unfold specRepoParse
        rw [if_neg hs, hu]
  · intro o r h
    by_cases hs : s = ""
    · subst hs
      rw [show scraperParseRepoUrl "" = RepoParse.noResult from by decide] at h
      cases h
    · cases hu : urlparse s with
      | none => rw [hexn hs hu] at h; cases h
      | some p =>
        rw [hbody hs hu, scraperBody_eq_specBody] at h
        unfold specBody at h
        by_cases hc : (p.scheme = "" ∧ p.netloc = "" ∧
            (nonemptySegs p).length = 2) ∨
            (netlocLower p = "github.com" ∧
              2 ≤ (nonemptySegs p).length)
        · rw [if_pos hc] at h
          by_cases hr : stripGit ((nonemptySegs p).getD 1 "") = ""
          · rw [if_pos hr] at h; cases h
          · rw [if_neg hr] at h
            injection h with h₁ h₂
            subst h₁; subst h₂
            refine ⟨?_, hr⟩
            rcases hm : nonemptySegs p with _ | ⟨a, tail⟩
            · rw [hm] at hc
              rcases hc with ⟨-, -, hl⟩ | ⟨-, hl⟩ <;> simp at hl
            · simpa using
                mem_nonemptySegs_ne (by rw [hm]; exact List.mem_cons_self a tail)
        · rw [if_neg hc] at h; cases h
  · by_cases hs : s = ""
    · subst hs
      rw [show scraperParseRepoUrl "" = RepoParse.noResult from by decide]
      simp
    · cases hu : urlparse s with
      | none =>
        rw [hexn hs hu]
        simp [hs, hu]
      | some p =>
        rw [hbody hs hu, scraperBody_eq_specBody]
        unfold specBody
        constructor
        · intro h
          by_cases hc : (p.scheme = "" ∧ p.netloc = "" ∧
              (nonemptySegs p).length = 2) ∨
              (netlocLower p = "github.com" ∧
                2 ≤ (nonemptySegs p).length)
          · rw [if_pos hc] at h
            by_cases hr : stripGit ((nonemptySegs p).getD 1 "") = ""
            · rw [if_pos hr] at h; cases h
            · rw [if_neg hr] at h; cases h
          · rw [if_neg hc] at h; cases h
        · rintro ⟨-, h⟩
          cases h


/-- Witness for C3 (amended) at concrete inputs: the bracket input raises,
and a found result has non-empty fields. -/
theorem c3_witness :
    scraperParseRepoUrl "http://[x/y/z" = RepoParse.exn ∧
    ("owner" : String) ≠ "" ∧ ("repo" : String) ≠ "" :=
  ⟨(c3_repo_url_parser_amended "http://[x/y/z").2.2.1.mpr ⟨by decide, by decide⟩,
   (c3_repo_url_parser_amended "https://github.com/owner/repo.git").2.1
     "owner" "repo" (by decide)⟩

/-- C10 counterexample: on `"o/r.git"` the scraper strips the `.git` suffix
while the resource manager does not, so the two parsers do not return the
same result. -/
theorem c10_counterexample :
    scraperParseRepoUrl "o/r.git" = RepoParse.found "o" "r" ∧
    managerParseRepoUrl "o/r.git" = RepoParse.found "o" "r.git" ∧
    scraperParseRepoUrl "o/r.git" ≠ managerParseRepoUrl "o/r.git" := by decide

/-- C10 (amended): the two parsers agree on the empty string, on every input
`urlparse` rejects, and on every parsed input where none of the scraper's
three extras bites: no empty path segment, an already-lowercase host, and
no `.git` suffix on the second path segment. -/
theorem c10_parsers_agree_amended (s : String) :
    (scraperParseRepoUrl "" = managerParseRepoUrl "") ∧
    (urlparse s = none → scraperParseRepoUrl s = managerParseRepoUrl s) ∧
    (∀ p, urlparse s = some p →
      (∀ seg ∈ pathSegments p.path, seg ≠ "") →
      netlocLower p = p.netloc →
      stripGit ((pathSegments p.path).getD 1 "") = (pathSegments p.path).getD 1 "" →
      scraperParseRepoUrl s = managerParseRepoUrl s) := by
  refine ⟨by decide, ?_, ?_⟩
  · intro hu
    have hs : s ≠ "" := by
      intro he
      subst he
      rw [show urlparse "" = some ⟨"", "", ""⟩ from by decide] at hu
      cases hu
    unfold scraperParseRepoUrl managerParseRepoUrl
    rw [if_neg hs, hu]
  · intro p hu hseg hnl hgit
    have hs : s ≠ "" := by
      intro he
      subst he
      rw [show urlparse "" = some ⟨"", "", ""⟩ from by decide] at hu
      injection hu with hu
      subst hu
      exact hseg "" (by decide) rfl
    have hsc : scraperParseRepoUrl s = scraperBody p := by
      unfold scraperParseRepoUrl
      rw [if_neg hs, hu]
    have hman : managerParseRepoUrl s =
        (if (p.netloc = "github.com" ∧ 2 ≤ (pathSegments p.path).length) ∨
            (p.scheme = "" ∧ p.netloc = "" ∧ (pathSegments p.path).length = 2) then
          RepoParse.found ((pathSegments p.path).getD 0 "") ((pathSegments p.path).getD 1 "")
        else RepoParse.noResult) := by
      unfold managerParseRepoUrl
      rw [hu]
    have hfil : nonemptySegs p = pathSegments p.path := by
      unfold nonemptySegs
      exact List.filter_eq_self.mpr (fun a ha => by simpa using hseg a ha)
    rw [hsc, hman]
    unfold scraperBody scraperCand
    rw [hfil]
    by_cases h₁ : p.scheme = "" ∧ p.netloc = ""
    · have hng : ¬ p.netloc = "github.com" := by
        rw [h₁.2]; decide
      rcases hL : pathSegments p.path with _ | ⟨a, _ | ⟨b, rest⟩⟩
      · simp [h₁, hng]
      · simp [h₁, hng]
      · rcases rest with _ | ⟨c, rest'⟩
        · have ha : a ≠ "" := hseg a (by rw [hL]; exact List.mem_cons_self a [b])
          have hbne : b ≠ "" := hseg b
            (by rw [hL]; exact List.mem_cons_of_mem a (List.mem_cons_self b []))
          have hb : stripGit b = b := by
            have := hgit
            rw [hL] at this
            exact this
          simp [h₁, hng, ha, hb, hbne]
        · simp [h₁, hng]
    · by_cases h₂ : p.netloc = "github.com"
      · have hg2 : netlocLower p = "github.com" := hnl.trans h₂
        rcases hL : pathSegments p.path with _ | ⟨a, _ | ⟨b, rest⟩⟩
        · simp [h₁, h₂, hg2]
        · simp [h₁, h₂, hg2]
        · have ha : a ≠ "" := hseg a (by rw [hL]; exact List.mem_cons_self a (b :: rest))
          have hbne : b ≠ "" := hseg b
            (by rw [hL]; exact List.mem_cons_of_mem a (List.mem_cons_self b rest))
          have hb : stripGit b = b := by
            have := hgit
            rw [hL] at this
            exact this
          simp [h₁, h₂, hg2, ha, hb, hbne]
      · have hng : ¬ netlocLower p = "github.com" := by
          rw [hnl]; exact h₂
        have hcf : ¬ ((p.netloc = "github.com" ∧ 2 ≤ (pathSegments p.path).length) ∨
            (p.scheme = "" ∧ p.netloc = "" ∧ (pathSegments p.path).length = 2)) := by
          rintro (⟨hg, -⟩ | ⟨ha, hb, -⟩)
          · exact h₂ hg
          · exact h₁ ⟨ha, hb⟩
        simp [h₁, hng, hcf]

/-- Witness for C10 (amended): agreement at a concrete well-behaved input. -/
theorem c10_witness :
    scraperParseRepoUrl "https://github.com/owner/repo"
      = managerParseRepoUrl "https://github.com/owner/repo" :=
  (c10_parsers_agree_amended "https://github.com/owner/repo").2.2
    ⟨"https", "github.com", "/owner/repo"⟩ (by decide) (by decide) (by decide) (by decide)

/-! ### `GitHubResourceManager.download_release_asset` (main.py lines 581-628)

The transport layer (`requests`) is the model's input: a `Transport` value
describes what the single `requests.get` call produced.  Chunks are
modelled by their byte counts (the code only tests emptiness and takes
`len(chunk)`).  A local I/O failure is modelled as occurring when the
destination file is opened, before any chunk is written.  `Path(dest) /
filename` is modelled as `dest ++ "/" ++ filename`. -/

inductive Transport where
  | response (status : Nat) (contentLength : Nat) (chunks : List Nat)
  | timeout
  | connectionError
  | otherRequestError
deriving DecidableEq, Repr

/-- How `download_release_asset` terminates: `ok` returns the path string;
every other constructor is a distinct raised exception.  (`exn` is the
`ValueError` escaping from `urlparse` itself, `valueError` the explicit
`raise ValueError` for an unparseable repository reference,
`assetNotFound` the `FileNotFoundError` raised for HTTP 404.) -/
inductive DlResult where
  | ok (path : String)
  | exn
  | valueError
  | assetNotFound
  | httpError (status : Nat)
  | timeout
  | connectionError
  | requestError
  | ioError
deriving DecidableEq, Repr

/-- The streaming loop: skips empty (keep-alive) chunks, accumulates
`downloaded_size`, and calls `progress_callback(total_size,
downloaded_size)` after each chunk iff a callback was given and
`total_size > 0`.  Returns (callback invocations, downloaded size). -/
def chunkLoop (hasCb : Bool) (total : Nat) : List Nat → Nat → List (Nat × Nat) × Nat
  | [], dl => ([], dl)
  | c :: cs, dl =>
    if c = 0 then chunkLoop hasCb total cs dl
    else
      let dl' := dl + c
      let rest := chunkLoop hasCb total cs dl'
      ((if hasCb = true ∧ 0 < total then [(total, dl')] else []) ++ rest.1, rest.2)

def download_release_asset (repoUrl tagName assetFilename destDir : String)
    (t : Transport) (ioFails : Bool) (hasCb : Bool) : DlResult × List (Nat × Nat) :=
  match managerParseRepoUrl repoUrl with
  | .exn => (.exn, [])
  | .noResult => (.valueError, [])
  | .found _ _ =>
    match t with
    | .timeout => (.timeout, [])
    | .connectionError => (.connectionError, [])
    | .otherRequestError => (.requestError, [])
    | .response status contentLength chunks =>
      if 400 ≤ status ∧ status < 600 then
        if status = 404 then (.assetNotFound, []) else (.httpError status, [])
      else if ioFails then (.ioError, [])
      else
        let res := chunkLoop hasCb contentLength chunks 0
        (.ok (destDir ++ "/" ++ assetFilename),
          res.1 ++
            (if hasCb = true ∧ contentLength = 0 ∧ 0 < res.2 then [(res.2, res.2)] else []))

/-- C4: with a valid repository reference, an HTTP 404 yields the dedicated
asset-not-found failure; every other HTTP error, a timeout, a connection
failure, another request failure and a local I/O failure each propagate as
their own distinct kind (the status code of an HTTP error is preserved);
success returns the final file path as a string; and the asset-not-found
kind differs from every other failure kind. -/
theorem c4_download_error_taxonomy (repoUrl tagName filename destDir : String)
    (o r : String) (hrepo : managerParseRepoUrl repoUrl = .found o r)
    (ioFails hasCb : Bool) :
    (∀ cl chunks, (download_release_asset repoUrl tagName filename destDir
      (.response 404 cl chunks) ioFails hasCb).1 = .assetNotFound) ∧
    (∀ status cl chunks, 400 ≤ status → status < 600 → status ≠ 404 →
      (download_release_asset repoUrl tagName filename destDir
        (.response status cl chunks) ioFails hasCb).1 = .httpError status) ∧
    ((download_release_asset repoUrl tagName filename destDir
      .timeout ioFails hasCb).1 = .timeout) ∧
    ((download_release_asset repoUrl tagName filename destDir
      .connectionError ioFails hasCb).1 = .connectionError) ∧
    ((download_release_asset repoUrl tagName filename destDir
      .otherRequestError ioFails hasCb).1 = .requestError) ∧
    (∀ status cl chunks, status < 400 →
      (download_release_asset repoUrl tagName filename destDir
        (.response status cl chunks) true hasCb).1 = .ioError) ∧
    (∀ status cl chunks, status < 400 →
      (download_release_asset repoUrl tagName filename destDir
        (.response status cl chunks) false hasCb).1
        = .ok (destDir ++ "/" ++ filename)) ∧
    (∀ st, DlResult.assetNotFound ≠ .httpError st) ∧
    DlResult.assetNotFound ≠ .timeout ∧
    DlResult.assetNotFound ≠ .connectionError ∧
    DlResult.assetNotFound ≠ .requestError ∧
    DlResult.assetNotFound ≠ .ioError := by
  refine ⟨?_, ?_, ?_, ?_, ?_, ?_, ?_,
    fun st h => DlResult.noConfusion h, fun h => DlResult.noConfusion h,
    fun h => DlResult.noConfusion h, fun h => DlResult.noConfusion h,
    fun h => DlResult.noConfusion h⟩
  · intro cl chunks
    simp [download_release_asset, hrepo]
  · intro status cl chunks h₁ h₂ h₃
    simp [download_release_asset, hrepo, h₁, h₂, h₃]
  · simp [download_release_asset, hrepo]
  · simp [download_release_asset, hrepo]
  · simp [download_release_asset, hrepo]
  · intro status cl chunks h
    have : ¬ (400 ≤ status ∧ status < 600) := by omega
    simp [download_release_asset, hrepo, this]
  · intro status cl chunks h
    have : ¬ (400 ≤ status ∧ status < 600) := by omega
    simp [download_release_asset, hrepo, this]

/-- Witness for C4: a concrete 404 run and a concrete successful run. -/
theorem c4_witness :
    (download_release_asset "o/r" "v1" "f.dat" "dest"
      (.response 404 0 []) false true).1 = DlResult.assetNotFound ∧
    (download_release_asset "o/r" "v1" "f.dat" "dest"
      (.response 200 4 [4]) false true).1 = DlResult.ok "dest/f.dat" :=
  ⟨(c4_download_error_taxonomy "o/r" "v1" "f.dat" "dest" "o" "r"
      (by decide) false true).1 0 [],
   (c4_download_error_taxonomy "o/r" "v1" "f.dat" "dest" "o" "r"
      (by decide) false true).2.2.2.2.2.2.1 200 4 [4] (by decide)⟩

/-- The `(total, downloaded)` pairs reported for chunk sizes `cs` starting
from already-downloaded `dl`. -/
def cumSums (total : Nat) : List Nat → Nat → List (Nat × Nat)
  | [], _ => []
  | c :: cs, dl => (total, dl + c) :: cumSums total cs (dl + c)

theorem chunkLoop_snd (hasCb : Bool) (total : Nat) :
    ∀ chunks dl, (chunkLoop hasCb total chunks dl).2 = dl + chunks.sum := by
  intro chunks
  induction chunks with
  | nil => intro dl; simp [chunkLoop]
  | cons c cs ih =>
    intro dl
    by_cases hc : c = 0
    · subst hc
      simp [chunkLoop, ih]
    · simp [chunkLoop, hc, ih]
      omega

theorem chunkLoop_fst_pos (total : Nat) (hpos : 0 < total) :
    ∀ chunks dl, (chunkLoop true total chunks dl).1
      = cumSums total (chunks.filter (fun c => c ≠ 0)) dl := by
  intro chunks
  induction chunks with
  | nil => intro dl; simp [chunkLoop, cumSums]
  | cons c cs ih =>
    intro dl
    by_cases hc : c = 0
    · subst hc
      simp [chunkLoop, ih]
    · simp [chunkLoop, hc, hpos, ih, cumSums]

theorem chunkLoop_fst_zero (hasCb : Bool) :
    ∀ chunks dl, (chunkLoop hasCb 0 chunks dl).1 = [] := by
  intro chunks
  induction chunks with
  | nil => intro dl; simp [chunkLoop]
  | cons c cs ih =>
    intro dl
    by_cases hc : c = 0
    · subst hc
      simp [chunkLoop, ih]
    · simp [chunkLoop, hc, ih]

/-- C8: on a successful download with a progress callback, when the content
length is positive the callback is invoked after each non-empty chunk with
`(total_size, downloaded_so_far)`; when the content length header is absent
or zero but at least one byte arrived, it is invoked exactly once at
completion with the downloaded size as both arguments. -/
theorem c8_progress_protocol (repoUrl tagName filename destDir : String)
    (o r : String) (hrepo : managerParseRepoUrl repoUrl = .found o r)
    (status : Nat) (hst : status < 400) (cl : Nat) (chunks : List Nat) :
    (0 < cl →
      (download_release_asset repoUrl tagName filename destDir
        (.response status cl chunks) false true).2
        = cumSums cl (chunks.filter (fun c => c ≠ 0)) 0) ∧
    (cl = 0 → 0 < chunks.sum →
      (download_release_asset repoUrl tagName filename destDir
        (.response status cl chunks) false true).2
        = [(chunks.sum, chunks.sum)]) := by
  have hnot : ¬ (400 ≤ status ∧ status < 600) := by omega
  constructor
  · intro hcl
    have hne : cl ≠ 0 := by omega
    simp [download_release_asset, hrepo, hnot, chunkLoop_fst_pos cl hcl, hne]
  · intro hcl hsum
    subst hcl
    simp [download_release_asset, hrepo, hnot, chunkLoop_fst_zero,
      chunkLoop_snd, hsum]

/-- Witness for C8: a concrete successful run with known and with unknown
total size. -/
theorem c8_witness :
    ((download_release_asset "o/r" "v1" "f.dat" "dest"
        (.response 200 10 [4, 0, 6]) false true).2
      = cumSums 10 ([4, 0, 6].filter (fun c => c ≠ 0)) 0) ∧
    ((download_release_asset "o/r" "v1" "f.dat" "dest"
        (.response 200 0 [7]) false true).2 = [(7, 7)]) :=
  ⟨(c8_progress_protocol "o/r" "v1" "f.dat" "dest" "o" "r" (by decide)
      200 (by decide) 10 [4, 0, 6]).1 (by decide),
   by
    have h := (c8_progress_protocol "o/r" "v1" "f.dat" "dest" "o" "r" (by decide)
      200 (by decide) 0 [7]).2 rfl (by decide)
    simpa using h⟩

/-! ### `MainManager._check_single_entity_update` (main.py lines 1768-1809)

The network collaborators are the model's inputs: reachability of the
update server, what `get_latest_release_tag` returned (normal mode) and
what `get_all_releases_info` returned (developer mode).  Status messages
are modelled by kind (the code formats Japanese strings around the same
five cases). -/

inductive UpdateStatus where
  | serverUnreachable
  | updateAvailable (tag : String)
  | alreadyLatest
  | invalidTag (tag : String)
  | noInfo
deriving DecidableEq, Repr

structure UpdateEnv where
  connectionOk : Bool
  latestTag : Option String
  allReleases : Option (List ReleaseInfo)
deriving Repr

/-- The tag the check works with: normal mode uses the latest-release page;
developer mode takes the highest version (pre-releases included) of all
releases, when any were scraped (`if all_releases:` — Python truthiness,
so an empty list also falls through to no tag). -/
def effectiveLatestTag (env : UpdateEnv) (dev : Bool) : Option String :=
  if dev = false then env.latestTag
  else
    match env.allReleases with
    | some rs => if rs.isEmpty then none else getHighestVersionTag rs true
    | none => none

def check_single_entity_update (vi : VersionInfo) (env : UpdateEnv)
    (dev : Bool) : VersionInfo × UpdateStatus :=
  if env.connectionOk = false then
    ({ vi with latest_available := vi.current }, .serverUnreachable)
  else
    match effectiveLatestTag env dev with
    | some tag =>
      if tag = "" then ({ vi with latest_available := vi.current }, .noInfo)
      else
        match parseVersion tag with
        | some _ =>
          ({ vi with latest_available := tag },
            if ({ vi with latest_available := tag } : VersionInfo).is_update_available
            then .updateAvailable tag else .alreadyLatest)
        | none => ({ vi with latest_available := vi.current }, .invalidTag tag)
    | none => ({ vi with latest_available := vi.current }, .noInfo)

/-- C5: after the per-entity update check, `latest_available` is always
either a parseable version string or equal to `current`; on an unreachable
server, an unparseable tag, or no tag it is reset to `current` with the
corresponding status and no exception; a valid tag is stored and reported
as update-available or already-latest; and `current` itself is never
touched. -/
theorem c5_latest_available_invariant (vi : VersionInfo) (env : UpdateEnv)
    (dev : Bool) :
    ((parseVersion (check_single_entity_update vi env dev).1.latest_available).isSome
      ∨ (check_single_entity_update vi env dev).1.latest_available = vi.current) ∧
    (env.connectionOk = false →
      (check_single_entity_update vi env dev).1.latest_available = vi.current ∧
      (check_single_entity_update vi env dev).2 = .serverUnreachable) ∧
    (∀ tag, (check_single_entity_update vi env dev).2 = .invalidTag tag →
      (check_single_entity_update vi env dev).1.latest_available = vi.current) ∧
    ((check_single_entity_update vi env dev).2 = .noInfo →
      (check_single_entity_update vi env dev).1.latest_available = vi.current) ∧
    (∀ tag v, env.connectionOk = true → effectiveLatestTag env dev = some tag →
      tag ≠ "" → parseVersion tag = some v →
      (check_single_entity_update vi env dev).1.latest_available = tag ∧
      ((check_single_entity_update vi env dev).2 = .updateAvailable tag ∨
        (check_single_entity_update vi env dev).2 = .alreadyLatest)) ∧
    ((check_single_entity_update vi env dev).1.current = vi.current) := by
  by_cases hconn : env.connectionOk = false
  · have hR : check_single_entity_update vi env dev
        = ({ vi with latest_available := vi.current }, .serverUnreachable) := by
      unfold check_single_entity_update
      rw [if_pos hconn]
    rw [hR]
    refine ⟨Or.inr rfl, fun _ => ⟨rfl, rfl⟩, ?_, ?_, ?_, rfl⟩
    · intro tag h; cases h
    · intro h; cases h
    · intro tag v hc _ _ _
      rw [hconn] at hc; cases hc
  · cases hlt : effectiveLatestTag env dev with
    | none =>
      have hR : check_single_entity_update vi env dev
          = ({ vi with latest_available := vi.current }, .noInfo) := by
        unfold check_single_entity_update
        rw [if_neg hconn, hlt]
      rw [hR]
      refine ⟨Or.inr rfl, fun h => absurd h hconn, ?_, fun _ => rfl, ?_, rfl⟩
      · intro tag h; cases h
      · intro tag v _ h
        cases h
    | some t =>
      by_cases ht : t = ""
      · subst ht
        have hR : check_single_entity_update vi env dev
            = ({ vi with latest_available := vi.current }, .noInfo) := by
          unfold check_single_entity_update
          simp [hconn, hlt]
        rw [hR]
        refine ⟨Or.inr rfl, fun h => absurd h hconn, ?_, fun _ => rfl, ?_, rfl⟩
        · intro tag h; cases h
        · intro tag v _ h hne
          injection h with h
          subst h
          exact absurd rfl hne
      · cases hp : parseVersion t with
        | none =>
          have hR : check_single_entity_update vi env dev
              = ({ vi with latest_available := vi.current }, .invalidTag t) := by
            unfold check_single_entity_update
            simp [hconn, hlt, ht, hp]
          rw [hR]
          refine ⟨Or.inr rfl, fun h => absurd h hconn, fun tag _ => rfl, ?_, ?_, rfl⟩
          · intro h; cases h
          · intro tag v _ h _ hpv
            injection h with h
            subst h
            rw [hp] at hpv; cases hpv
        | some v =>
          have hR : check_single_entity_update vi env dev
              = ({ vi with latest_available := t },
                if ({ vi with latest_available := t } : VersionInfo).is_update_available
                then .updateAvailable t else .alreadyLatest) := by
            unfold check_single_entity_update
            simp [hconn, hlt, ht, hp]
          rw [hR]
          refine ⟨Or.inl (by simp [hp]), fun h => absurd h hconn, ?_, ?_, ?_, rfl⟩
          · intro tag h
            by_cases hup : ({ vi with latest_available := t } : VersionInfo).is_update_available
            · rw [if_pos hup] at h; cases h
            · rw [if_neg hup] at h; cases h
          · intro h
            by_cases hup : ({ vi with latest_available := t } : VersionInfo).is_update_available
            · rw [if_pos hup] at h; cases h
            · rw [if_neg hup] at h; cases h
          · intro tag w _ h _ _
            injection h with h
            subst h
            refine ⟨rfl, ?_⟩
            by_cases hup : ({ vi with latest_available := t } : VersionInfo).is_update_available
            · exact Or.inl (by rw [if_pos hup])
            · exact Or.inr (by rw [if_neg hup])

/-- Witness for C5: a concrete unreachable-server check resets
`latest_available`, and a concrete valid-tag check stores the tag. -/
theorem c5_witness :
    ((check_single_entity_update ⟨"1.0.0", "1.0.0", none⟩
        ⟨false, none, none⟩ false).1.latest_available = "1.0.0" ∧
      (check_single_entity_update ⟨"1.0.0", "1.0.0", none⟩
        ⟨false, none, none⟩ false).2 = UpdateStatus.serverUnreachable) ∧
    ((check_single_entity_update ⟨"1.0.0", "1.0.0", none⟩
        ⟨true, some "v1.2.0", none⟩ false).1.latest_available = "v1.2.0" ∧
      ((check_single_entity_update ⟨"1.0.0", "1.0.0", none⟩
          ⟨true, some "v1.2.0", none⟩ false).2 = UpdateStatus.updateAvailable "v1.2.0" ∨
        (check_single_entity_update ⟨"1.0.0", "1.0.0", none⟩
          ⟨true, some "v1.2.0", none⟩ false).2 = UpdateStatus.alreadyLatest)) :=
  ⟨(c5_latest_available_invariant ⟨"1.0.0", "1.0.0", none⟩ ⟨false, none, none⟩ false).2.1 rfl,
   (c5_latest_available_invariant ⟨"1.0.0", "1.0.0", none⟩ ⟨true, some "v1.2.0", none⟩
      false).2.2.2.2.1 "v1.2.0" ⟨0, [1, 2, 0], none, none, none, none⟩
      rfl (by decide) (by decide) (by decide)⟩

/-! ### `DownloadWorker.run` and the UIManager in-progress flag
(main.py lines 672-707 and 1456-1503)

`run` executes on the worker thread while `cancel_download` may flip
`_is_cancelled` (monotonically, `False` to `True`) from the UI thread at
any moment.  The model numbers the flag reads `run` performs in program
order and takes as input the index of the first read that observes `True`
(`flipAt = none`: cancellation never requested).  Reads happen: before
each file (the per-file boundary check), at each progress invocation
(`if not self._is_cancelled` in the callback), in the `except` handler,
and once after the loop guarding the completion signal.  Each file
download is a `FilePlan`: the progress invocations the download function
makes, and whether it returns a path or raises. -/

inductive WEvent where
  | progress (filename : String) (fileNum totalFiles totalSize downloadedSize : Nat)
  | finished (paths : List String)
  | errorCancelled
  | errorExn (msg : String)
deriving DecidableEq, Repr

structure FilePlan where
  calls : List (Nat × Nat)
  result : Option String
  exnMsg : String
deriving DecidableEq, Repr

def cancelRead (flipAt : Option Nat) (k : Nat) : Bool :=
  match flipAt with
  | none => false
  | some n => n ≤ k

/-- `_file_progress_callback` invocations of one file: each reads the flag
once and emits `progress_signal` only while not cancelled.  Returns the
emitted events and the next read index. -/
def emitProgress (flipAt : Option Nat) (name : String) (num total : Nat) :
    List (Nat × Nat) → Nat → List WEvent × Nat
  | [], k => ([], k)
  | td :: rest, k =>
    let tail := emitProgress flipAt name num total rest (k + 1)
    ((if cancelRead flipAt k then [] else [.progress name num total td.1 td.2]) ++ tail.1,
      tail.2)

def runFrom (flipAt : Option Nat) (total : Nat) :
    List (String × FilePlan) → Nat → Nat → List String → List WEvent
  | [], _, k, paths =>
    if cancelRead flipAt k then [] else [.finished paths.reverse]
  | (name, plan) :: rest, i, k, paths =>
    if cancelRead flipAt k then [.errorCancelled]
    else
      let pe := emitProgress flipAt name (i + 1) total plan.calls (k + 1)
      match plan.result with
      | some path => pe.1 ++ runFrom flipAt total rest (i + 1) pe.2 (path :: paths)
      | none => pe.1 ++ (if cancelRead flipAt pe.2 then [] else [.errorExn plan.exnMsg])

/-- `DownloadWorker.run`: the events the run emits, in order. -/
def runWorker (flipAt : Option Nat) (files : List (String × FilePlan)) : List WEvent :=
  runFrom flipAt files.length files 0 0 []

/-- Number of flag reads consumed by a list of fully-downloaded files. -/
def readsOf : List (String × FilePlan) → Nat
  | [] => 0
  | fp :: rest => 1 + fp.2.calls.length + readsOf rest

/-- The progress events of a list of files downloaded without
cancellation, first file numbered `i + 1`. -/
def expectedEvents (total : Nat) : List (String × FilePlan) → Nat → List WEvent
  | [], _ => []
  | (name, plan) :: rest, i =>
    plan.calls.map (fun td => .progress name (i + 1) total td.1 td.2)
      ++ expectedEvents total rest (i + 1)

theorem emitProgress_all (n : Nat) (name : String) (num total : Nat) :
    ∀ (calls : List (Nat × Nat)) (k : Nat), k + calls.length ≤ n →
      emitProgress (some n) name num total calls k
        = (calls.map (fun td => WEvent.progress name num total td.1 td.2),
          k + calls.length) := by
  intro calls
  induction calls with
  | nil => intro k h; simp [emitProgress]
  | cons td rest ih =>
    intro k h
    have hk : ¬ n ≤ k := by
      simp [List.length_cons] at h
      omega
    have hrest : (k + 1) + rest.length ≤ n := by
      simp [List.length_cons] at h
      omega
    simp [emitProgress, cancelRead, hk, ih (k + 1) hrest]
    omega

theorem runFrom_cons (flipAt : Option Nat) (total : Nat) (name : String)
    (plan : FilePlan) (rest : List (String × FilePlan)) (i k : Nat)
    (paths : List String) :
    runFrom flipAt total ((name, plan) :: rest) i k paths
      = if cancelRead flipAt k then [.errorCancelled]
        else
          match plan.result with
          | some path =>
            (emitProgress flipAt name (i + 1) total plan.calls (k + 1)).1
              ++ runFrom flipAt total rest (i + 1)
                (emitProgress flipAt name (i + 1) total plan.calls (k + 1)).2
                (path :: paths)
          | none =>
            (emitProgress flipAt name (i + 1) total plan.calls (k + 1)).1
              ++ (if cancelRead flipAt
                    (emitProgress flipAt name (i + 1) total plan.calls (k + 1)).2
                  then [] else [.errorExn plan.exnMsg]) := rfl

theorem runFrom_cancel_at_boundary (total : Nat) :
    ∀ (done : List (String × FilePlan)) (nm : String) (pl : FilePlan)
      (rest : List (String × FilePlan)) (i k : Nat) (paths : List String),
      (∀ fp ∈ done, fp.2.result.isSome) →
      runFrom (some (k + readsOf done)) total (done ++ (nm, pl) :: rest) i k paths
        = expectedEvents total done i ++ [.errorCancelled] := by
  intro done
  induction done with
  | nil =>
    intro nm pl rest i k paths _
    have : cancelRead (some (k + readsOf [])) k = true := by
      simp [cancelRead, readsOf]
    simp [runFrom, this, expectedEvents]
  | cons fp done ih =>
    intro nm pl rest i k paths hall
    obtain ⟨name, plan⟩ := fp
    have hres : plan.result.isSome :=
      hall (name, plan) (List.mem_cons_self _ _)
    obtain ⟨path, hpath⟩ := Option.isSome_iff_exists.mp hres
    have hn : k + readsOf ((name, plan) :: done)
        = (k + 1 + plan.calls.length) + readsOf done := by
      simp [readsOf] <;> omega
    have hb : cancelRead (some (k + readsOf ((name, plan) :: done))) k = false := by
      simp [cancelRead, readsOf] <;> omega
    have hprog := emitProgress_all (k + readsOf ((name, plan) :: done)) name (i + 1) total
      plan.calls (k + 1) (by simp [readsOf] <;> omega)
    rw [List.cons_append, runFrom_cons]
    simp only [hb, Bool.false_eq_true, if_false, hpath, hprog]
    have hihv := ih nm pl rest (i + 1) (k + 1 + plan.calls.length) (path :: paths)
      (fun fp hfp => hall fp (List.mem_cons_of_mem _ hfp))
    rw [hn, hihv]
    simp [expectedEvents]

theorem expectedEvents_mem (total : Nat) :
    ∀ (l : List (String × FilePlan)) (i : Nat) (ev : WEvent),
      ev ∈ expectedEvents total l i →
      ∃ (name : String) (td : Nat × Nat) (num : Nat),
        ev = WEvent.progress name num total td.1 td.2 ∧
        i + 1 ≤ num ∧ num ≤ i + l.length := by
  intro l
  induction l with
  | nil => intro i ev h; simp [expectedEvents] at h
  | cons fp rest ih =>
    intro i ev h
    obtain ⟨name, plan⟩ := fp
    rw [expectedEvents] at h
    rcases List.mem_append.mp h with h | h
    · obtain ⟨td, -, htd⟩ := List.mem_map.mp h
      exact ⟨name, td, i + 1, htd.symm, le_refl _, by simp⟩
    · obtain ⟨name', td, num, hev, h₁, h₂⟩ := ih (i + 1) ev h
      refine ⟨name', td, num, hev, by omega, ?_⟩
      simp only [List.length_cons]
      omega

/-- C7: over an ordered file list, if the cooperative cancellation flag is
set after the files `done` all complete and before the next file starts,
the run stops at the per-file check: it emits exactly the progress events
of `done` followed by a single cancellation-error event — so exactly one
cancellation error, no completion event, and no progress event for any
later file; in particular, for `[a, b, c]` cancelled after `a`, exactly
`a`'s progress sequence, one cancellation error, and no completion. -/
theorem c7_cancellation_at_file_boundary (files done : List (String × FilePlan))
    (nm : String) (pl : FilePlan) (rest : List (String × FilePlan))
    (hfiles : files = done ++ (nm, pl) :: rest)
    (hok : ∀ fp ∈ done, fp.2.result.isSome) :
    runWorker (some (readsOf done)) files
      = expectedEvents files.length done 0 ++ [.errorCancelled] ∧
    (runWorker (some (readsOf done)) files).count .errorCancelled = 1 ∧
    (∀ ps, WEvent.finished ps ∉ runWorker (some (readsOf done)) files) ∧
    (∀ name num total t d,
      WEvent.progress name num total t d ∈ runWorker (some (readsOf done)) files →
      num ≤ done.length) ∧
    (runWorker (some 2)
        [("a", ⟨[(10, 10)], some "p/a", ""⟩), ("b", ⟨[(5, 5)], some "p/b", ""⟩),
          ("c", ⟨[(7, 7)], some "p/c", ""⟩)]
      = [.progress "a" 1 3 10 10, .errorCancelled]) := by
  have hmain : runWorker (some (readsOf done)) files
      = expectedEvents files.length done 0 ++ [.errorCancelled] := by
    unfold runWorker
    rw [hfiles]
    have := runFrom_cancel_at_boundary (done ++ (nm, pl) :: rest).length done nm pl rest 0 0 []
      hok
    rw [Nat.zero_add] at this
    exact this
  have hnp : ∀ ev ∈ expectedEvents files.length done 0,
      ∃ (name : String) (td : Nat × Nat) (num : Nat),
        ev = WEvent.progress name num files.length td.1 td.2 ∧
        1 ≤ num ∧ num ≤ done.length := by
    intro ev hev
    obtain ⟨name, td, num, h₁, h₂, h₃⟩ := expectedEvents_mem files.length done 0 ev hev
    exact ⟨name, td, num, h₁, by omega, by simpa using h₃⟩
  refine ⟨hmain, ?_, ?_, ?_, by decide⟩
  · rw [hmain, List.count_append]
    have : (expectedEvents files.length done 0).count WEvent.errorCancelled = 0 := by
      rw [List.count_eq_zero]
      intro h
      obtain ⟨name, td, num, h₁, -, -⟩ := hnp _ h
      cases h₁
    rw [this]
    decide
  · intro ps h
    rw [hmain] at h
    rcases List.mem_append.mp h with h | h
    · obtain ⟨name, td, num, h₁, -, -⟩ := hnp _ h
      cases h₁
    · cases List.mem_singleton.mp h
  · intro name num total t d h
    rw [hmain] at h
    rcases List.mem_append.mp h with h | h
    · obtain ⟨name', td, num', h₁, -, h₂⟩ := hnp _ h
      injection h₁ with e₁ e₂ e₃ e₄ e₅
      omega
    · cases List.mem_singleton.mp h

/-- Witness for C7: the concrete `[a, b, c]` example via the theorem. -/
theorem c7_witness :
    runWorker (some (readsOf [("a", (⟨[(10, 10)], some "p/a", ""⟩ : FilePlan))]))
        [("a", ⟨[(10, 10)], some "p/a", ""⟩), ("b", ⟨[(5, 5)], some "p/b", ""⟩),
          ("c", ⟨[(7, 7)], some "p/c", ""⟩)]
      = expectedEvents 3 [("a", ⟨[(10, 10)], some "p/a", ""⟩)] 0
          ++ [WEvent.errorCancelled] := by
  have h := (c7_cancellation_at_file_boundary
    [("a", ⟨[(10, 10)], some "p/a", ""⟩), ("b", ⟨[(5, 5)], some "p/b", ""⟩),
      ("c", ⟨[(7, 7)], some "p/c", ""⟩)]
    [("a", ⟨[(10, 10)], some "p/a", ""⟩)] "b" ⟨[(5, 5)], some "p/b", ""⟩
    [("c", ⟨[(7, 7)], some "p/c", ""⟩)] rfl (by decide)).1
  simpa using h

/-! ### The in-progress flag (`UIManager.start_background_download` and the
terminal-signal handlers) -/

inductive StartAction where
  | emitStatus (rejected : Bool)
  | setFlag (b : Bool)
  | spawnWorker
deriving DecidableEq, Repr

/-- The observable actions of `start_background_download`, in program
order: when a download is already in progress, only the rejection status
message; otherwise the preparing message, then setting the flag, then
starting the worker. -/
def startActions (inProgress : Bool) : List StartAction :=
  if inProgress then [.emitStatus true]
  else [.emitStatus false, .setFlag true, .spawnWorker]

/-- Effect of one worker signal on `_is_download_in_progress`
(`_on_download_process_finished` / `_on_download_process_error` clear it;
progress signals leave it alone). -/
def applySignal (flag : Bool) : WEvent → Bool
  | .progress _ _ _ _ _ => flag
  | .finished _ => false
  | .errorCancelled => false
  | .errorExn _ => false

def applySignals (flag : Bool) (evs : List WEvent) : Bool := evs.foldl applySignal flag

structure UIState where
  isDownloadInProgress : Bool
  activeWorkers : Nat
deriving DecidableEq, Repr

inductive SysEvent where
  | request
  | terminalSignal
  | silentExit
deriving DecidableEq, Repr

/-- System-level transitions: a download request spawns a worker unless the
flag is set; a terminal signal (completion or error, including reported
cancellation) ends a run and clears the flag; a silent exit (a run that
observed cancellation only after its last file, or together with an
exception) ends a run without any signal, leaving the flag set. -/
def sysStep (st : UIState) : SysEvent → UIState
  | .request =>
    if st.isDownloadInProgress then st
    else { isDownloadInProgress := true, activeWorkers := st.activeWorkers + 1 }
  | .terminalSignal =>
    if 0 < st.activeWorkers then
      { isDownloadInProgress := false, activeWorkers := st.activeWorkers - 1 }
    else st
  | .silentExit =>
    if 0 < st.activeWorkers then { st with activeWorkers := st.activeWorkers - 1 }
    else st

def sysRun (evs : List SysEvent) : UIState := evs.foldl sysStep ⟨false, 0⟩

/-- C6 counterexample: a one-file run whose cancellation lands after the
file completes and before the post-loop check terminates having emitted
only a progress event — no terminal signal at all — so the handlers never
run and the in-progress flag stays set after the run's terminal path. -/
theorem c6_counterexample :
    runWorker (some 2) [("a", ⟨[(10, 10)], some "p/a", ""⟩)]
      = [WEvent.progress "a" 1 1 10 10] ∧
    applySignals true (runWorker (some 2) [("a", ⟨[(10, 10)], some "p/a", ""⟩)])
      = true := by decide

theorem sysRun_invariant_aux :
    ∀ (evs : List SysEvent) (st : UIState),
      (st.isDownloadInProgress = false → st.activeWorkers = 0) →
      st.activeWorkers ≤ 1 →
      ((evs.foldl sysStep st).activeWorkers ≤ 1 ∧
        ((evs.foldl sysStep st).isDownloadInProgress = false →
          (evs.foldl sysStep st).activeWorkers = 0)) := by
  intro evs
  induction evs with
  | nil => intro st h₁ h₂; exact ⟨h₂, h₁⟩
  | cons e evs ih =>
    intro st h₁ h₂
    rw [List.foldl_cons]
    cases e with
    | request =>
      by_cases hp : st.isDownloadInProgress
      · exact ih _ (by simpa [sysStep, hp] using h₁) (by simpa [sysStep, hp] using h₂)
      · refine ih _ (by simp [sysStep, hp]) ?_
        have h0 : st.activeWorkers = 0 := h₁ (by simpa using hp)
        simp [sysStep, hp, h0]
    | terminalSignal =>
      by_cases hw : 0 < st.activeWorkers
      · refine ih _ (by simp [sysStep, hw]; omega) (by simp [sysStep, hw]; omega)
      · exact ih _ (by simpa [sysStep, hw] using h₁) (by simpa [sysStep, hw] using h₂)
    | silentExit =>
      by_cases hw : 0 < st.activeWorkers
      · refine ih _ ?_ (by simp [sysStep, hw]; omega)
        intro hflag
        have := h₁ (by simpa [sysStep, hw] using hflag)
        omega
      · exact ih _ (by simpa [sysStep, hw] using h₁) (by simpa [sysStep, hw] using h₂)

/-- C6 (amended): a second request while the flag is set is rejected with a
user-visible message and spawns nothing; otherwise the flag is set before
the worker is spawned; processing any terminal signal (success, error —
including boundary-reported cancellation) clears the flag, and a run whose
terminal event exists always clears it; but a run may also end silently
(cancellation observed only after its last file, or together with an
exception), leaving the flag set forever; in every interleaving at most
one worker is ever active. -/
theorem c6_single_run_amended :
    (startActions true = [.emitStatus true]) ∧
    (StartAction.spawnWorker ∉ startActions true) ∧
    (startActions false = [.emitStatus false, .setFlag true, .spawnWorker]) ∧
    ((startActions false).indexOf (.setFlag true)
      < (startActions false).indexOf .spawnWorker) ∧
    (∀ evs ps, applySignals true (evs ++ [WEvent.finished ps]) = false) ∧
    (∀ evs, applySignals true (evs ++ [WEvent.errorCancelled]) = false) ∧
    (∀ evs m, applySignals true (evs ++ [WEvent.errorExn m]) = false) ∧
    (∀ evs : List SysEvent, (sysRun evs).activeWorkers ≤ 1) := by
  refine ⟨by decide, by decide, by decide, by decide, ?_, ?_, ?_, ?_⟩
  · intro evs ps
    simp [applySignals, List.foldl_append, applySignal]
  · intro evs
    simp [applySignals, List.foldl_append, applySignal]
  · intro evs m
    simp [applySignals, List.foldl_append, applySignal]
  · intro evs
    exact (sysRun_invariant_aux evs ⟨false, 0⟩ (fun _ => rfl) (by decide)).1

/-- Witness for C6 (amended): the invariant at a concrete interleaving. -/
theorem c6_witness :
    (sysRun [SysEvent.request, SysEvent.request, SysEvent.terminalSignal,
      SysEvent.request]).activeWorkers ≤ 1 :=
  (c6_single_run_amended).2.2.2.2.2.2.2
    [SysEvent.request, SysEvent.request, SysEvent.terminalSignal, SysEvent.request]

/-! ### `JsonConfigManager` (main.py lines 173-262)

The persisted JSON object is modelled as an association list in file order
(Python dicts preserve insertion order and `json.dumps`/`loads` round-trip
it).  `_save_config` writes `self.config` back verbatim, so the model's
"file" is the mapping itself.  `knownKeys` lists the `CONFIG_KEY_*`
constants with their `DEFAULT_*` values in class-declaration order — the
order `_load_config` iterates `type(CONST).__dict__`.  `launch_mode`'s
default is the `LaunchMode.STEAM` IntEnum, serialised by `json` as the
integer 1. -/

inductive CVal where
  | s (v : String)
  | i (v : Int)
  | b (v : Bool)
deriving DecidableEq, Repr

abbrev Config := List (String × CVal)

def knownKeys : Config :=
  [("app_version", .s "1.0.0"),
   ("translation_version", .s "0.0.0"),
   ("launch_mode", .i 1),
   ("local_path", .s ""),
   ("app_server_url", .s "PS2-Localization-JP/PlanetSide2-nihongo-mod-ui/"),
   ("translation_server_url", .s "PS2-Localization-JP/PlanetSide2-nihongo-mod-api/"),
   ("developer_mode", .b false)]

def hasKey (c : Config) (k : String) : Bool := (c.find? (fun kv => kv.1 = k)).isSome

def lookupKey (c : Config) (k : String) : Option CVal :=
  (c.find? (fun kv => kv.1 = k)).map (fun kv => kv.2)

/-- One step of the migration loop of `_load_config`: `if value not in
self.config: self.config[value] = default` — dict insertion appends. -/
def migrateStep (c : Config) (kv : String × CVal) : Config :=
  if hasKey c kv.1 then c else c ++ [kv]

def migrateFold (ks : Config) (c : Config) : Config := ks.foldl migrateStep c

/-- `_load_config` on a successfully parsed file (each insertion is also
saved; the model's file is the mapping). -/
def loadConfig (c : Config) : Config := migrateFold knownKeys c

/-- `set_config_value`: dict assignment (update in place if present, else
append) followed by a save. -/
def setConfigValue (c : Config) (k : String) (v : CVal) : Config :=
  if hasKey c k then c.map (fun kv => if kv.1 = k then (k, v) else kv)
  else c ++ [(k, v)]

theorem lookupKey_append_left {c : Config} {k : String} {v : CVal}
    (h : lookupKey c k = some v) (l : Config) : lookupKey (c ++ l) k = some v := by
  unfold lookupKey at h ⊢
  rw [List.find?_append]
  cases hf : c.find? (fun kv => kv.1 = k) with
  | none => rw [hf] at h; cases h
  | some kv => rw [hf] at h; simp [hf, h]

theorem hasKey_append_left {c : Config} {k : String} (h : hasKey c k = true)
    (l : Config) : hasKey (c ++ l) k = true := by
  unfold hasKey at h ⊢
  rw [List.find?_append]
  cases hf : c.find? (fun kv => kv.1 = k) with
  | none => rw [hf] at h; cases h
  | some kv => simp [hf]

theorem migrateFold_lookup_preserved (ks : Config) :
    ∀ (c : Config) (k : String) (v : CVal), lookupKey c k = some v →
      lookupKey (migrateFold ks c) k = some v := by
  induction ks with
  | nil => intro c k v h; exact h
  | cons kv ks ih =>
    intro c k v h
    rw [migrateFold, List.foldl_cons]
    refine ih _ k v ?_
    unfold migrateStep
    by_cases hk : hasKey c kv.1 = true
    · rw [if_pos hk]; exact h
    · rw [if_neg hk]; exact lookupKey_append_left h _

theorem migrateFold_hasKey_mono (ks : Config) :
    ∀ (c : Config) (k : String), hasKey c k = true →
      hasKey (migrateFold ks c) k = true := by
  induction ks with
  | nil => intro c k h; exact h
  | cons kv ks ih =>
    intro c k h
    rw [migrateFold, List.foldl_cons]
    refine ih _ k ?_
    unfold migrateStep
    by_cases hk : hasKey c kv.1 = true
    · rw [if_pos hk]; exact h
    · rw [if_neg hk]; exact hasKey_append_left h _

theorem migrateFold_mem_hasKey (ks : Config) :
    ∀ (c : Config) (k : String) (d : CVal), (k, d) ∈ ks →
      hasKey (migrateFold ks c) k = true := by
  induction ks with
  | nil => intro c k d h; simp at h
  | cons kv ks ih =>
    intro c k d h
    rw [migrateFold, List.foldl_cons]
    rcases List.mem_cons.mp h with h | h
    · subst h
      refine migrateFold_hasKey_mono ks _ k ?_
      unfold migrateStep
      by_cases hk : hasKey c k = true
      · rw [if_pos hk]; exact hk
      · rw [if_neg hk]
        unfold hasKey
        rw [List.find?_append]
        unfold hasKey at hk
        cases hf : c.find? (fun kv => kv.1 = k) with
        | none => simp [hf]
        | some kv' => rw [hf] at hk; simp at hk
    · exact ih _ k d h

theorem migrateFold_all_present (ks : Config) :
    ∀ (c : Config), (∀ kv ∈ ks, hasKey c kv.1 = true) → migrateFold ks c = c := by
  induction ks with
  | nil => intro c _; rfl
  | cons kv ks ih =>
    intro c hall
    rw [migrateFold, List.foldl_cons]
    have hstep : migrateStep c kv = c := by
      unfold migrateStep
      rw [if_pos (hall kv (List.mem_cons_self _ _))]
    rw [hstep]
    exact ih c (fun kv' h => hall kv' (List.mem_cons_of_mem _ h))

theorem migrateFold_missing_default (ks : Config) :
    ∀ (c : Config) (k : String) (d : CVal),
      (ks.map (fun kv => kv.1)).Nodup → (k, d) ∈ ks → hasKey c k = false →
      lookupKey (migrateFold ks c) k = some d := by
  induction ks with
  | nil => intro c k d _ h _; simp at h
  | cons kv ks ih =>
    intro c k d hnd hmem habs
    have hnd' : (ks.map (fun kv => kv.1)).Nodup := (List.nodup_cons.mp hnd).2
    have hnotin : kv.1 ∉ ks.map (fun kv => kv.1) := (List.nodup_cons.mp hnd).1
    rw [migrateFold, List.foldl_cons]
    rcases List.mem_cons.mp hmem with h | h
    · subst h
      have hstep : migrateStep c (k, d) = c ++ [(k, d)] := by
        unfold migrateStep
        rw [if_neg (by simp [habs])]
      rw [hstep]
      refine migrateFold_lookup_preserved ks _ k d ?_
      unfold lookupKey
      rw [List.find?_append]
      unfold hasKey at habs
      cases hf : c.find? (fun kv => kv.1 = k) with
      | none => simp [hf]
      | some kv' => rw [hf] at habs; simp at habs
    · have hkne : kv.1 ≠ k := by
        intro he
        exact hnotin (he ▸ List.mem_map.mpr ⟨(k, d), h, he ▸ rfl⟩)
      have habs' : hasKey (migrateStep c kv) k = false := by
        unfold migrateStep
        by_cases hk : hasKey c kv.1 = true
        · rw [if_pos hk]; exact habs
        · rw [if_neg hk]
          unfold hasKey at habs ⊢
          rw [List.find?_append]
          cases hf : c.find? (fun kv => kv.1 = k) with
          | none => simp [hf, List.find?, hkne]
          | some kv' => rw [hf] at habs; simp at habs
      exact ih _ k d hnd' h habs'

theorem migrateFold_appends (ks : Config) :
    ∀ c : Config, ∃ tail, migrateFold ks c = c ++ tail := by
  induction ks with
  | nil => intro c; exact ⟨[], by simp [migrateFold]⟩
  | cons kv ks ih =>
    intro c
    rw [migrateFold, List.foldl_cons]
    by_cases hk : hasKey c kv.1 = true
    · rw [show migrateStep c kv = c from by unfold migrateStep; rw [if_pos hk]]
      exact ih c
    · rw [show migrateStep c kv = c ++ [kv] from by unfold migrateStep; rw [if_neg hk]]
      obtain ⟨tail, htail⟩ := ih (c ++ [kv])
      refine ⟨[kv] ++ tail, ?_⟩
      rw [show List.foldl migrateStep (c ++ [kv]) ks = migrateFold ks (c ++ [kv]) from rfl,
        htail, List.append_assoc]

theorem setConfigValue_lookup (c : Config) (k : String) (v : CVal) :
    lookupKey (setConfigValue c k v) k = some v := by
  unfold setConfigValue
  by_cases hk : hasKey c k = true
  · rw [if_pos hk]
    unfold hasKey at hk
    induction c with
    | nil => simp [List.find?] at hk
    | cons kv c ih =>
      by_cases hh : kv.1 = k
      · simp [lookupKey, List.find?, hh]
      · have hk' : (c.find? (fun kv => kv.1 = k)).isSome = true := by
          rw [List.find?_cons_of_neg] at hk
          · exact hk
          · simp [hh]
        have := ih hk'
        simp only [List.map_cons, if_neg hh] at *
        unfold lookupKey at this ⊢
        rw [List.find?_cons_of_neg _ (by simp [hh])]
        exact this
  · rw [if_neg hk]
    unfold lookupKey hasKey at *
    rw [List.find?_append]
    cases hf : c.find? (fun kv => kv.1 = k) with
    | none => simp [hf]
    | some kv' => rw [hf] at hk; simp at hk

/-- C9: loading a successfully parsed mapping inserts the documented
default for each recognised key that is missing (and persists), leaves
every key present in the file — recognised or not — unchanged and in
place (the result extends the file), a second load changes nothing, and a
written value survives a reload. -/
theorem c9_config_migration (c : Config) :
    (∀ k v, lookupKey c k = some v → lookupKey (loadConfig c) k = some v) ∧
    (∀ k d, (k, d) ∈ knownKeys → hasKey c k = false →
      lookupKey (loadConfig c) k = some d) ∧
    (∃ tail, loadConfig c = c ++ tail) ∧
    (loadConfig (loadConfig c) = loadConfig c) ∧
    (∀ k v, lookupKey (loadConfig (setConfigValue c k v)) k = some v) := by
  refine ⟨?_, ?_, ?_, ?_, ?_⟩
  · intro k v h
    exact migrateFold_lookup_preserved knownKeys c k v h
  · intro k d hmem habs
    exact migrateFold_missing_default knownKeys c k d (by decide) hmem habs
  · exact migrateFold_appends knownKeys c
  · unfold loadConfig
    refine migrateFold_all_present knownKeys _ ?_
    intro kv hkv
    exact migrateFold_mem_hasKey knownKeys c kv.1 kv.2 (by simpa using hkv)
  · intro k v
    exact migrateFold_lookup_preserved knownKeys _ k v (setConfigValue_lookup c k v)

/-- Witness for C9 at a concrete stored mapping: an unrecognised key and a
present recognised key survive unchanged, and a missing recognised key
gains its documented default. -/
theorem c9_witness :
    lookupKey (loadConfig [("launch_mode", CVal.i 0), ("custom", CVal.s "x")])
        "custom" = some (CVal.s "x") ∧
    lookupKey (loadConfig [("launch_mode", CVal.i 0), ("custom", CVal.s "x")])
        "app_version" = some (CVal.s "1.0.0") ∧
    lookupKey (loadConfig (setConfigValue [("launch_mode", CVal.i 0)]
        "local_path" (CVal.s "C:/game"))) "local_path" = some (CVal.s "C:/game") :=
  ⟨(c9_config_migration [("launch_mode", CVal.i 0), ("custom", CVal.s "x")]).1
      "custom" (CVal.s "x") (by decide),
   (c9_config_migration [("launch_mode", CVal.i 0), ("custom", CVal.s "x")]).2.1
      "app_version" (CVal.s "1.0.0") (by decide) (by decide),
   (c9_config_migration [("launch_mode", CVal.i 0)]).2.2.2.2
      "local_path" (CVal.s "C:/game")⟩

end PS2JP
